import Mathlib

/-!
Verification of the fetch-orchestration subsystem of
`src/data/Charles Schwab/Historical Data/PriceHistoryFast.py`.

The Python components are shallowly embedded as executable Lean functions:

* `RateLimiter.wait_if_needed` (lines 120-136) becomes a sequential step
  relation on the list of admission timestamps.  The Python method holds
  `self.lock` for its whole body (including the sleep), so concurrent callers
  are serialized; an execution is a list of calls, each carrying the value of
  `time.time()` observed at entry (under the lock) and the value appended at
  the end of the body.  Wall-clock time is modelled by `Rat` and assumed
  monotone across the serialized calls.
* `TokenManager` (lines 143-226) becomes a record of optional fields plus
  pure functions for `tokens_valid`, `update_tokens` and the successful
  branch of `refresh_access_token`.
* `get_price_history` / `get_price_history_with_retry` (lines 314-426)
  become functions over an abstract per-attempt HTTP outcome.
* `ProgressTracker` (lines 509-554) becomes a `Finset String` with the
  byte-level JSON serialization used by `save_progress`, so that partial
  writes (prefixes of the file) can be examined.
* `main_parallel` / `fetch_and_process_ticker` (lines 464-507, 556-652)
  become a fold over the remaining tickers; the submission order of the
  thread pool is abstracted to a sequential order, which is faithful for
  the properties considered here (which fetches are issued and what the
  final completed set is).
-/

namespace PriceHistoryFast

/-! ## RateLimiter (PriceHistoryFast.py lines 113-136)

`wait_if_needed` executes, under `self.lock`:
1. `current_time = time.time()`;
2. prune: keep timestamps `t` with `current_time - t < time_window`;
3. if at least `max_requests` remain, sleep until
   `oldest + time_window - current_time` has elapsed;
4. append a fresh `time.time()` value (no re-prune and no re-check).

A call is modelled by a pair `c : Rat × Rat`: `c.1` is the entry time
(step 1) and `c.2` the appended timestamp (step 4).  `callOK` states what
the code guarantees about `c.2`: it is not earlier than `c.1`, and if the
size check fired then the sleep forces `c.2` to be at least
`oldest + time_window`.  `Valid` chains calls: the lock serializes them, so
each entry time is at least the previous appended time. -/

/-- Pruning step of `wait_if_needed` (line 124-125): keep timestamps within
the trailing window. -/
def prune (T t : ℚ) (ts : List ℚ) : List ℚ :=
  ts.filter (fun x => t - x < T)

/-- State update of one `wait_if_needed` call: the pruned list with the
fresh timestamp appended (lines 124-136).  The update is the same whether
or not the call slept; only the constraints on the appended time differ. -/
def admitAppend (T : ℚ) (ts : List ℚ) (c : ℚ × ℚ) : List ℚ :=
  prune T c.1 ts ++ [c.2]

/-- The timestamp list after a sequence of calls. -/
def runState (T : ℚ) : List ℚ → List (ℚ × ℚ) → List ℚ
  | ts, [] => ts
  | ts, c :: rest => runState T (admitAppend T ts c) rest

/-- Constraints one call satisfies: the appended time is not earlier than
the entry time, and if the size check fired (line 127) the sleep (line 133)
guarantees the appended time is at least `oldest + time_window`. -/
def callOK (maxR : ℕ) (T : ℚ) (ts : List ℚ) (c : ℚ × ℚ) : Prop :=
  c.1 ≤ c.2 ∧
    (maxR ≤ (prune T c.1 ts).length → (prune T c.1 ts).headI + T ≤ c.2)

/-- A valid execution of serialized `wait_if_needed` calls starting from
state `ts`, where `lastT` is the previously appended timestamp (entry times
are taken under the same lock, hence not earlier). -/
def Valid (maxR : ℕ) (T : ℚ) : List ℚ → ℚ → List (ℚ × ℚ) → Prop
  | _, _, [] => True
  | ts, lastT, c :: rest =>
      lastT ≤ c.1 ∧ callOK maxR T ts c ∧
        Valid maxR T (admitAppend T ts c) c.2 rest

/-- Invariant carried between calls: all stored timestamps are at most the
last appended time, and every half-open window ending no earlier than the
last appended time contains at most `maxR` stored timestamps. -/
def WindowInv (maxR : ℕ) (T : ℚ) (ts : List ℚ) (lastT : ℚ) : Prop :=
  (∀ x ∈ ts, x ≤ lastT) ∧
    ∀ a : ℚ, lastT ≤ a + T → ((ts.filter (fun x => a < x)).length ≤ maxR)

/-- Boolean test that a timestamp lies in the half-open sliding window
`(a, a + T]`. -/
def inWindow (T a x : ℚ) : Bool :=
  decide (a < x) && decide (x ≤ a + T)

theorem inWindow_iff (T a x : ℚ) :
    inWindow T a x = true ↔ (a < x ∧ x ≤ a + T) := by
  simp [inWindow]

theorem prune_eq_filter (T t : ℚ) (ts : List ℚ) :
    prune T t ts = ts.filter (fun x => t - T < x) := by
  unfold prune
  apply List.filter_congr
  intro x _
  simp only [decide_eq_decide]
  constructor <;> intro h <;> linarith

theorem windowInv_nil (maxR : ℕ) (T : ℚ) (lastT : ℚ) :
    WindowInv maxR T [] lastT := by
  refine ⟨fun x hx => absurd hx (List.not_mem_nil x), fun a _ => ?_⟩
  simp

/-- The invariant is preserved by one valid call. -/
theorem windowInv_step (maxR : ℕ) (T : ℚ) (hmax : 0 < maxR)
    (ts : List ℚ) (lastT : ℚ) (c : ℚ × ℚ)
    (hInv : WindowInv maxR T ts lastT) (hle : lastT ≤ c.1)
    (hok : callOK maxR T ts c) :
    WindowInv maxR T (admitAppend T ts c) c.2 := by
  obtain ⟨hbound, hwin⟩ := hInv
  obtain ⟨h12, hwait⟩ := hok
  constructor
  · intro x hx
    rcases List.mem_append.mp hx with hx | hx
    · have hx' := List.mem_filter.mp hx
      exact le_trans (le_trans (hbound x hx'.1) hle) h12
    · have : x = c.2 := by simpa using hx
      exact this.le
  · intro a ha
    rw [admitAppend, List.filter_append, List.length_append]
    have hsingle : (([c.2]).filter (fun x => a < x)).length ≤ 1 := by
      refine le_trans (List.length_filter_le _ _) ?_
      simp
    by_cases hcheck : maxR ≤ (prune T c.1 ts).length
    · have hplen : (prune T c.1 ts).length ≤ maxR := by
        rw [prune_eq_filter]
        exact hwin (c.1 - T) (by linarith)
      have hpe : (prune T c.1 ts).length = maxR := le_antisymm hplen hcheck
      cases hp : prune T c.1 ts with
      | nil =>
        rw [hp] at hpe
        simp at hpe
        omega
      | cons h tl =>
        have hhead : (prune T c.1 ts).headI = h := by rw [hp]; rfl
        have hht : h + T ≤ c.2 := by
          have := hwait hcheck
          rwa [hhead] at this
        have hna : ¬ (a < h) := by intro hlt; linarith
        have hdrop : ((h :: tl).filter (fun x => a < x)).length
            = (tl.filter (fun x => a < x)).length := by
          rw [List.filter_cons, if_neg (by simpa using hna)]
        have htlen : (tl.filter (fun x => a < x)).length ≤ tl.length :=
          List.length_filter_le _ _
        have htl : tl.length + 1 = maxR := by
          rw [hp] at hpe
          simpa using hpe
        omega
    · push_neg at hcheck
      have h1 : ((prune T c.1 ts).filter (fun x => a < x)).length
          ≤ (prune T c.1 ts).length := List.length_filter_le _ _
      omega

/-- Every timestamp admitted by a valid execution is at least the starting
time bound. -/
theorem valid_admitted_lb (maxR : ℕ) (T : ℚ) :
    ∀ (calls : List (ℚ × ℚ)) (ts : List ℚ) (lastT : ℚ),
      Valid maxR T ts lastT calls →
      ∀ x ∈ calls.map Prod.snd, lastT ≤ x := by
  intro calls
  induction calls with
  | nil => intro ts lastT _ x hx; simp at hx
  | cons c rest ih =>
    intro ts lastT hv x hx
    obtain ⟨hle, hok, hrest⟩ := hv
    rcases List.mem_cons.mp hx with hx | hx
    · subst hx
      exact le_trans hle hok.1
    · exact le_trans (le_trans hle hok.1) (ih _ _ hrest x hx)

/-- Master lemma: during any valid execution, the admitted timestamps that
fall in the half-open window `(a, a + T]` together with the stored
timestamps above `a` never exceed `maxR`, as long as the window has not
entirely elapsed. -/
theorem window_master (maxR : ℕ) (T : ℚ) (hmax : 0 < maxR) :
    ∀ (calls : List (ℚ × ℚ)) (ts : List ℚ) (lastT : ℚ),
      Valid maxR T ts lastT calls → WindowInv maxR T ts lastT →
      ∀ a : ℚ, lastT ≤ a + T →
        ((calls.map Prod.snd).filter (inWindow T a)).length
          + (ts.filter (fun x => a < x)).length ≤ maxR := by
  intro calls
  induction calls with
  | nil =>
    intro ts lastT _ hInv a ha
    simpa using hInv.2 a ha
  | cons c rest ih =>
    intro ts lastT hv hInv a ha
    obtain ⟨hle, hok, hrest⟩ := hv
    by_cases hB : c.2 ≤ a + T
    · have hInv' := windowInv_step maxR T hmax ts lastT c hInv hle hok
      have IH := ih (admitAppend T ts c) c.2 hrest hInv' a hB
      rw [admitAppend, List.filter_append, List.length_append] at IH
      have hc1 : c.1 ≤ a + T := le_trans hok.1 hB
      have hts : ((prune T c.1 ts).filter (fun x => a < x)).length
          = (ts.filter (fun x => a < x)).length := by
        rw [prune_eq_filter, List.filter_filter]
        congr 1
        apply List.filter_congr
        intro x _
        by_cases hax : a < x
        · have : c.1 - T < x := by linarith
          simp [hax, this]
        · simp [hax]
      rw [hts] at IH
      rw [List.map_cons, List.filter_cons]
      by_cases hw : inWindow T a c.2 = true
      · have hac : a < c.2 := ((inWindow_iff T a c.2).mp hw).1
        have hsing : (([c.2]).filter (fun x => a < x)).length = 1 := by
          simp [hac]
        rw [if_pos hw]
        rw [hsing] at IH
        simp only [List.length_cons]
        omega
      · rw [if_neg hw]
        have hsingle : (([c.2]).filter (fun x => a < x)).length ≤ 1 := by
          refine le_trans (List.length_filter_le _ _) ?_
          simp
        omega
    · push_neg at hB
      have hzero : ((rest.map Prod.snd).filter (inWindow T a)) = [] := by
        rw [List.filter_eq_nil_iff]
        intro x hx
        have := valid_admitted_lb maxR T rest _ _ hrest x hx
        rw [inWindow_iff]
        intro hcon
        linarith [hcon.2]
      have hheadno : ¬ (inWindow T a c.2 = true) := by
        rw [inWindow_iff]
        intro h
        linarith [h.2]
      rw [List.map_cons, List.filter_cons, if_neg hheadno, hzero]
      simpa using hInv.2 a ha

/-- C2: for every valid (serialized, lock-protected) execution of
`RateLimiter.wait_if_needed` starting from an empty window, and every
sliding window `(a, a + time_window]`, the number of admitted requests whose
admission timestamps fall within the window is at most `max_requests`. -/
theorem rate_limiter_window_bound (maxR : ℕ) (T t0 : ℚ)
    (calls : List (ℚ × ℚ)) (hmax : 0 < maxR)
    (hv : Valid maxR T [] t0 calls) (a : ℚ) :
    ((calls.map Prod.snd).filter (inWindow T a)).length ≤ maxR := by
  by_cases hcase : t0 ≤ a + T
  · have := window_master maxR T hmax calls [] t0 hv
      (windowInv_nil maxR T t0) a hcase
    simpa using this
  · push_neg at hcase
    have hzero : ((calls.map Prod.snd).filter (inWindow T a)) = [] := by
      rw [List.filter_eq_nil_iff]
      intro x hx
      have := valid_admitted_lb maxR T calls _ _ hv x hx
      rw [inWindow_iff]
      intro hcon
      linarith [hcon.2]
    simp [hzero]

/-- Witness for `rate_limiter_window_bound`: a concrete two-call execution
with `max_requests = 1`, `time_window = 1`; the second call must wait until
time `1` and the window `(0, 1]` indeed contains at most one admission. -/
theorem rate_limiter_window_bound_wit :
    0 < 1 ∧
      ((([((0 : ℚ), (0 : ℚ)), (1/2, 1)]).map Prod.snd).filter
        (inWindow 1 0)).length ≤ 1 := by
  constructor
  · norm_num
  · exact rate_limiter_window_bound 1 1 0 [((0 : ℚ), (0 : ℚ)), (1/2, 1)]
      (by norm_num)
      (by norm_num [Valid, callOK, prune, admitAppend, List.headI]) 0

/-- C5 counterexample: in the same concrete execution the list stored in
`request_timestamps` right after the second (waiting) call returns is
`[0, 1]`: its length is `2 > max_requests = 1`, and the entry `0` is not
within the trailing window at the return time `1` (since `1 - 0 < 1` is
false).  The claimed invariant (length at most `max_requests`, all entries
in-window, size check re-run before appending) fails on the code, which
appends without re-pruning or re-checking after the sleep. -/
theorem rate_window_overflow_cex :
    Valid 1 1 [] 0 [((0 : ℚ), (0 : ℚ)), (1/2, 1)] ∧
      runState 1 [] [((0 : ℚ), (0 : ℚ)), (1/2, 1)] = [0, 1] ∧
      ¬ ((runState 1 [] [((0 : ℚ), (0 : ℚ)), (1/2, 1)]).length ≤ 1) ∧
      ¬ ((1 : ℚ) - 0 < 1) := by
  refine ⟨?_, ?_, ?_, ?_⟩
  · norm_num [Valid, callOK, prune, admitAppend, List.headI]
  · norm_num [runState, admitAppend, prune]
  · norm_num [runState, admitAppend, prune]
  · norm_num

/-- A valid execution of an appended list of calls is valid on the first
part. -/
theorem valid_append_left (maxR : ℕ) (T : ℚ) :
    ∀ (pre suf : List (ℚ × ℚ)) (ts : List ℚ) (lastT : ℚ),
      Valid maxR T ts lastT (pre ++ suf) → Valid maxR T ts lastT pre := by
  intro pre
  induction pre with
  | nil => intro suf ts lastT _; trivial
  | cons c rest ih =>
    intro suf ts lastT hv
    obtain ⟨hle, hok, hrest⟩ := hv
    exact ⟨hle, hok, ih suf _ _ hrest⟩

theorem runState_length_aux (maxR : ℕ) (T : ℚ) (hmax : 0 < maxR) :
    ∀ (calls : List (ℚ × ℚ)) (ts : List ℚ) (lastT : ℚ),
      Valid maxR T ts lastT calls → WindowInv maxR T ts lastT →
      ts.length ≤ maxR + 1 →
      (runState T ts calls).length ≤ maxR + 1 := by
  intro calls
  induction calls with
  | nil => intro ts lastT _ _ h; simpa [runState] using h
  | cons c rest ih =>
    intro ts lastT hv hInv hlen
    obtain ⟨hle, hok, hrest⟩ := hv
    have hplen : (prune T c.1 ts).length ≤ maxR := by
      rw [prune_eq_filter]
      exact hInv.2 (c.1 - T) (by linarith)
    have hInv' := windowInv_step maxR T hmax ts lastT c hInv hle hok
    have hnew : (admitAppend T ts c).length ≤ maxR + 1 := by
      rw [admitAppend, List.length_append]
      simpa using hplen
    exact ih (admitAppend T ts c) c.2 hrest hInv' hnew

/-- C5 (amended): at every point between calls of a valid execution of
`wait_if_needed` started from an empty window, the stored timestamp list
has length at most `max_requests + 1` (not `max_requests`): the pruned list
before the append has at most `max_requests` entries, and the code appends
the new timestamp after the sleep without re-pruning or re-checking, so a
call that waited leaves one extra, just-expired entry until the next call
prunes it. -/
theorem rate_window_length_bound (maxR : ℕ) (T t0 : ℚ)
    (calls pre suf : List (ℚ × ℚ)) (hmax : 0 < maxR)
    (hsplit : calls = pre ++ suf)
    (hv : Valid maxR T [] t0 calls) :
    (runState T [] pre).length ≤ maxR + 1 := by
  subst hsplit
  have hpre := valid_append_left maxR T pre suf [] t0 hv
  exact runState_length_aux maxR T hmax pre [] t0 hpre
    (windowInv_nil maxR T t0) (by simp)

/-- Witness for `rate_window_length_bound` on the concrete two-call
execution: the stored list after both calls has length at most 2. -/
theorem rate_window_length_bound_wit :
    0 < 1 ∧
      (runState 1 [] [((0 : ℚ), (0 : ℚ)), (1/2, 1)]).length ≤ 1 + 1 := by
  constructor
  · norm_num
  · exact rate_window_length_bound 1 1 0 [((0 : ℚ), (0 : ℚ)), (1/2, 1)]
      [((0 : ℚ), (0 : ℚ)), (1/2, 1)] [] (by norm_num) (by simp)
      (by norm_num [Valid, callOK, prune, admitAppend, List.headI])

/-! ## TokenManager (PriceHistoryFast.py lines 143-226)

The four fields loaded from `tokens.json` may each be absent (`None`).
Python truthiness is modelled explicitly: a string field is truthy when
present and nonempty, an integer expiry is truthy when present and nonzero.
`time.time()` during one call is modelled by a single `now` parameter. -/

/-- In-memory state of `TokenManager`. -/
structure TokenState where
  access_token : Option String
  refresh_token : Option String
  access_token_expiry : Option ℤ
  refresh_token_expiry : Option ℤ
deriving DecidableEq, Repr

/-- Python truthiness of an optional string (`None` and `""` are falsy). -/
def truthyStr (s : Option String) : Bool :=
  match s with
  | none => false
  | some v => !(v == "")

/-- Python truthiness-guarded expiry check
`expiry and expiry > current_time` (line 220): falsy when the field is
`None` or `0`, otherwise the comparison. -/
def expiryTruthyGt (e : Option ℤ) (now : ℤ) : Bool :=
  match e with
  | none => false
  | some v => (!(v == 0)) && decide (now < v)

/-- `TokenManager.tokens_valid` (lines 217-222): access token truthy, its
expiry truthy and in the future, and refresh token truthy.  The refresh
token expiry is deliberately not consulted (comment on line 221). -/
def tokens_valid (s : TokenState) (now : ℤ) : Bool :=
  (truthyStr s.access_token && expiryTruthyGt s.access_token_expiry now)
    && truthyStr s.refresh_token

/-- `TokenManager.update_tokens` (lines 180-186): stores the two token
values and sets the expiries to fixed offsets from the current time
(`now + 1740` seconds and `now + 7*24*60*60 = now + 604800` seconds). -/
def update_tokens (now : ℤ) (access refresh : String) : TokenState :=
  { access_token := some access
    refresh_token := some refresh
    access_token_expiry := some (now + 1740)
    refresh_token_expiry := some (now + 604800) }

/-- Body of the token endpoint's JSON answer
(`access_token`, optional `refresh_token`, `expires_in`). -/
structure AuthResponse where
  resp_access_token : String
  resp_refresh_token : Option String
  expires_in : ℤ
deriving DecidableEq, Repr

/-- `TokenManager.refresh_access_token` (lines 188-215), with the HTTP
exchange abstracted to `resp` (`none` models a non-200 answer or an
exception).  Returns the new state and the function's boolean result.  On
success it calls `update_tokens` with the response's tokens, falling back
to the current refresh token when the response lacks one; `expires_in` is
never read. -/
def refresh_access_token (s : TokenState) (now : ℤ)
    (resp : Option AuthResponse) : TokenState × Bool :=
  match s.refresh_token with
  | none => (s, false)
  | some cur =>
    match resp with
    | none => (s, false)
    | some r =>
        (update_tokens now r.resp_access_token
          (r.resp_refresh_token.getD cur), true)

/-- C6 counterexample: a state whose refresh token expired in the past
(`refresh_token_expiry = 900 < now = 1000`) is still reported valid by
`tokens_valid`, because the code only checks the access token expiry and
the presence of the refresh token.  The claim that `tokens_valid` returns
true only while `now` is strictly before `refresh_token_expiry` is false. -/
theorem tokens_valid_ignores_refresh_expiry_cex :
    tokens_valid
      { access_token := some "acc", refresh_token := some "ref"
        access_token_expiry := some 1100, refresh_token_expiry := some 900 }
      1000 = true
    ∧ ¬ ((1000 : ℤ) < 900) := by
  constructor
  · rfl
  · decide

/-- C6 (amended): `tokens_valid` reports the credential usable only while
the access token is present, its expiry is truthy and strictly in the
future, and a refresh token value is present; the stored
`refresh_token_expiry` is never consulted (the result is invariant under
changing it). -/
theorem tokens_valid_access_only (s : TokenState) (now : ℤ)
    (h : tokens_valid s now = true) :
    (∃ v, s.access_token_expiry = some v ∧ now < v) ∧
      truthyStr s.access_token = true ∧
      truthyStr s.refresh_token = true ∧
      (∀ e e' : Option ℤ,
        tokens_valid { s with refresh_token_expiry := e } now
          = tokens_valid { s with refresh_token_expiry := e' } now) := by
  unfold tokens_valid at h
  rw [Bool.and_eq_true, Bool.and_eq_true] at h
  obtain ⟨⟨ha, he⟩, hr⟩ := h
  refine ⟨?_, ha, hr, ?_⟩
  · unfold expiryTruthyGt at he
    cases hx : s.access_token_expiry with
    | none => rw [hx] at he; exact absurd he (by simp)
    | some v =>
      rw [hx] at he
      rw [Bool.and_eq_true, decide_eq_true_eq] at he
      exact ⟨v, rfl, he.2⟩
  · intro e e'
    unfold tokens_valid
    rfl

/-- Witness for `tokens_valid_access_only` at a concrete valid state. -/
theorem tokens_valid_access_only_wit :
    tokens_valid
      { access_token := some "acc", refresh_token := some "ref"
        access_token_expiry := some 1100, refresh_token_expiry := some 900 }
      1000 = true
    ∧ ∃ v, (some (1100 : ℤ) = some v ∧ (1000 : ℤ) < v) := by
  refine ⟨rfl, ?_⟩
  have h := tokens_valid_access_only
    { access_token := some "acc", refresh_token := some "ref"
      access_token_expiry := some 1100, refresh_token_expiry := some 900 }
    1000 rfl
  exact h.1

/-- C9: every successful token exchange stores
`access_token_expiry = now + 1740` and
`refresh_token_expiry = now + 604800`, and the resulting state is entirely
independent of the `expires_in` value reported by the auth endpoint. -/
theorem update_tokens_fixed_expiries (s : TokenState) (now : ℤ)
    (r : AuthResponse) (cur a b : String)
    (h : s.refresh_token = some cur) :
    (refresh_access_token s now (some r)).1.access_token_expiry
        = some (now + 1740) ∧
      (refresh_access_token s now (some r)).1.refresh_token_expiry
        = some (now + 604800) ∧
      (update_tokens now a b).access_token_expiry = some (now + 1740) ∧
      (update_tokens now a b).refresh_token_expiry = some (now + 604800) ∧
      (∀ e : ℤ,
        refresh_access_token s now (some { r with expires_in := e })
          = refresh_access_token s now (some r)) := by
  unfold refresh_access_token
  rw [h]
  exact ⟨rfl, rfl, rfl, rfl, fun e => rfl⟩

/-- Witness for `update_tokens_fixed_expiries` at a concrete state and
response. -/
theorem update_tokens_fixed_expiries_wit :
    ({ access_token := none, refresh_token := some "ref"
       access_token_expiry := none,
       refresh_token_expiry := none } : TokenState).refresh_token
      = some "ref"
    ∧ (refresh_access_token
        { access_token := none, refresh_token := some "ref"
          access_token_expiry := none, refresh_token_expiry := none }
        50 (some { resp_access_token := "a2", resp_refresh_token := none
                   expires_in := 999 })).1.access_token_expiry
        = some (50 + 1740) := by
  refine ⟨rfl, ?_⟩
  exact (update_tokens_fixed_expiries _ 50 _ "ref" "x" "y" rfl).1

/-! ## Loading persisted state (lines 153-164 and 517-526)

`TokenManager.load_tokens` and `ProgressTracker.load_progress` both wrap
`json.load` plus field extraction in a `try/except Exception` block.  The
backing file is modelled as `FileContent`: absent, present-but-unparseable,
or a parsed JSON value.  A non-object top-level value makes `data.get(...)`
raise `AttributeError`, which the `except` swallows, leaving the
initialised defaults in place. -/

/-- Small JSON value model. -/
inductive JsonVal where
  | jnull : JsonVal
  | jbool : Bool → JsonVal
  | jnum : ℤ → JsonVal
  | jstr : String → JsonVal
  | jarr : List JsonVal → JsonVal
  | jobj : List (String × JsonVal) → JsonVal

/-- State of a backing file as seen by the loader. -/
inductive FileContent where
  | absent : FileContent
  | unparseable : FileContent
  | parsed : JsonVal → FileContent

/-- Python `dict.get(k)`: first binding for `k`, or `None`. -/
def lookupKey (kvs : List (String × JsonVal)) (k : String) : Option JsonVal :=
  match kvs with
  | [] => none
  | (k', v) :: rest => if k' = k then some v else lookupKey rest k

/-- Extract a string value (a stored `null` or missing key yields `none`). -/
def asStr (v : Option JsonVal) : Option String :=
  match v with
  | some (JsonVal.jstr s) => some s
  | _ => none

/-- Extract an integer value. -/
def asInt (v : Option JsonVal) : Option ℤ :=
  match v with
  | some (JsonVal.jnum n) => some n
  | _ => none

/-- `TokenManager.load_tokens` (lines 153-164): a missing file leaves the
constructor defaults (all `None`); a parse failure or a non-object top
level raises inside the `try` and is swallowed, also leaving all `None`;
otherwise each field is `data.get(key)`. -/
def load_tokens (fc : FileContent) : TokenState :=
  match fc with
  | FileContent.absent =>
      { access_token := none, refresh_token := none
        access_token_expiry := none, refresh_token_expiry := none }
  | FileContent.unparseable =>
      { access_token := none, refresh_token := none
        access_token_expiry := none, refresh_token_expiry := none }
  | FileContent.parsed j =>
    match j with
    | JsonVal.jobj kvs =>
        { access_token := asStr (lookupKey kvs "access_token")
          refresh_token := asStr (lookupKey kvs "refresh_token")
          access_token_expiry := asInt (lookupKey kvs "access_token_expiry")
          refresh_token_expiry :=
            asInt (lookupKey kvs "refresh_token_expiry") }
    | _ =>
        { access_token := none, refresh_token := none
          access_token_expiry := none, refresh_token_expiry := none }

/-- `ProgressTracker.load_progress` (lines 517-526):
`set(data.get('completed_tickers', []))` guarded by `try/except`.  A
missing file, parse failure, non-object top level, or non-list value all
leave the set empty (the latter two via the swallowed exception); a list
value contributes its string elements (non-string elements of a list are
never equal to a ticker string, so they are dropped in this model). -/
def load_progress (fc : FileContent) : Finset String :=
  match fc with
  | FileContent.absent => ∅
  | FileContent.unparseable => ∅
  | FileContent.parsed j =>
    match j with
    | JsonVal.jobj kvs =>
      match lookupKey kvs "completed_tickers" with
      | none => ∅
      | some (JsonVal.jarr xs) =>
          (xs.filterMap (fun v => asStr (some v))).toFinset
      | some _ => ∅
    | _ => ∅

/-- C8: a missing or malformed backing file never aborts the run: for an
absent file, unparseable JSON, or a JSON object missing the expected keys,
`load_tokens` leaves every token field `None` and `load_progress` leaves
the completed set empty, and both loaders return normally (they are total
functions). -/
theorem loaders_tolerate_missing_or_malformed :
    (load_tokens FileContent.absent
        = { access_token := none, refresh_token := none
            access_token_expiry := none, refresh_token_expiry := none }) ∧
    (load_tokens FileContent.unparseable
        = { access_token := none, refresh_token := none
            access_token_expiry := none, refresh_token_expiry := none }) ∧
    (∀ kvs : List (String × JsonVal),
      lookupKey kvs "access_token" = none →
      lookupKey kvs "refresh_token" = none →
      lookupKey kvs "access_token_expiry" = none →
      lookupKey kvs "refresh_token_expiry" = none →
      load_tokens (FileContent.parsed (JsonVal.jobj kvs))
        = { access_token := none, refresh_token := none
            access_token_expiry := none, refresh_token_expiry := none }) ∧
    (load_progress FileContent.absent = ∅) ∧
    (load_progress FileContent.unparseable = ∅) ∧
    (∀ kvs : List (String × JsonVal),
      lookupKey kvs "completed_tickers" = none →
      load_progress (FileContent.parsed (JsonVal.jobj kvs)) = ∅) := by
  refine ⟨rfl, rfl, ?_, rfl, rfl, ?_⟩
  · intro kvs h1 h2 h3 h4
    simp [load_tokens, h1, h2, h3, h4, asStr, asInt]
  · intro kvs h1
    simp [load_progress, h1]

/-- Witness for `loaders_tolerate_missing_or_malformed`: an object with an
unrelated key has no expected keys, and both loaders yield the fresh-start
values. -/
theorem loaders_tolerate_missing_or_malformed_wit :
    lookupKey [("other", JsonVal.jnum 3)] "access_token" = none ∧
      load_tokens (FileContent.parsed
          (JsonVal.jobj [("other", JsonVal.jnum 3)]))
        = { access_token := none, refresh_token := none
            access_token_expiry := none, refresh_token_expiry := none } ∧
      load_progress (FileContent.parsed
          (JsonVal.jobj [("other", JsonVal.jnum 3)])) = ∅ := by
  refine ⟨rfl, ?_, ?_⟩
  · exact loaders_tolerate_missing_or_malformed.2.2.1
      [("other", JsonVal.jnum 3)] rfl rfl rfl rfl
  · exact loaders_tolerate_missing_or_malformed.2.2.2.2.2
      [("other", JsonVal.jnum 3)] rfl

/-! ## ProgressTracker query operations (lines 536-554) -/

/-- `ProgressTracker.mark_completed` (lines 536-540), set part: add the
ticker if not yet present. -/
def mark_completed (completed : Finset String) (ticker : String) :
    Finset String :=
  if ticker ∈ completed then completed else insert ticker completed

/-- `ProgressTracker.is_completed` (lines 542-544). -/
def is_completed (completed : Finset String) (ticker : String) : Bool :=
  decide (ticker ∈ completed)

/-- `ProgressTracker.get_remaining_tickers` (lines 546-548): the input
list filtered to tickers not yet completed. -/
def get_remaining_tickers (completed : Finset String)
    (all_tickers_list : List String) : List String :=
  all_tickers_list.filter (fun t => t ∉ completed)

/-- `ProgressTracker.get_completion_percentage` (lines 550-554):
`len(completed ∩ set(list)) / len(list) * 100` when the list is nonempty,
else `0`. -/
def get_completion_percentage (completed : Finset String)
    (all_tickers_list : List String) : ℚ :=
  if 0 < all_tickers_list.length then
    (((completed ∩ all_tickers_list.toFinset).card : ℚ)
        / (all_tickers_list.length : ℚ)) * 100
  else 0

/-- C10: the completion percentage is `0` for an empty list (the division
is guarded), equals `100 * |completed ∩ list| / len(list)` otherwise,
depends only on the completed symbols that appear in the list, and always
lies in `[0, 100]`. -/
theorem completion_percentage_spec (completed : Finset String)
    (l : List String) :
    (l = [] → get_completion_percentage completed l = 0) ∧
      (l ≠ [] → get_completion_percentage completed l
        = 100 * ((completed ∩ l.toFinset).card : ℚ) / (l.length : ℚ)) ∧
      get_completion_percentage completed l
        = get_completion_percentage (completed ∩ l.toFinset) l ∧
      0 ≤ get_completion_percentage completed l ∧
      get_completion_percentage completed l ≤ 100 := by
  have hcard : (completed ∩ l.toFinset).card ≤ l.length :=
    le_trans (Finset.card_le_card (Finset.inter_subset_right))
      l.toFinset_card_le
  refine ⟨?_, ?_, ?_, ?_, ?_⟩
  · intro h
    subst h
    simp [get_completion_percentage]
  · intro h
    have hlen : 0 < l.length := List.length_pos.mpr h
    rw [get_completion_percentage, if_pos hlen]
    ring
  · rw [get_completion_percentage, get_completion_percentage,
      Finset.inter_assoc, Finset.inter_self]
  · rw [get_completion_percentage]
    split
    · positivity
    · norm_num
  · rw [get_completion_percentage]
    split
    · rename_i hlen
      have hratio : ((completed ∩ l.toFinset).card : ℚ)
          / (l.length : ℚ) ≤ 1 := by
        apply div_le_one_of_le₀
        · exact_mod_cast hcard
        · positivity
      nlinarith [hratio]
    · norm_num

/-- Witness for `completion_percentage_spec` at a concrete nonempty list. -/
theorem completion_percentage_spec_wit :
    (["A", "C"] ≠ ([] : List String)) ∧
      get_completion_percentage {"A", "B"} ["A", "C"]
        = 100 * ((({"A", "B"} : Finset String)
            ∩ (["A", "C"] : List String).toFinset).card : ℚ)
          / (((["A", "C"] : List String).length : ℚ)) := by
  refine ⟨by simp, ?_⟩
  exact (completion_percentage_spec {"A", "B"} ["A", "C"]).2.1 (by simp)

/-! ## FetchUnit (lines 314-426) and worker (lines 464-507)

One HTTP exchange of `get_price_history` is abstracted to `HttpResult`:
a 200 answer with its JSON body, a non-200 status code, or a timeout /
connection-level exception.  Exceptions raised by the Python function are
modelled with `Except`. -/

/-- One OHLCV candle (`open` is a Lean keyword, hence `open'`). -/
structure Candle where
  datetime : ℤ
  open' : ℚ
  high : ℚ
  low : ℚ
  close : ℚ
  volume : ℚ
deriving DecidableEq, Repr

/-- JSON body of a 200 price-history answer: the `empty` flag and the
candle list (`data.get('empty', True)` makes a missing flag count as
empty). -/
structure PriceData where
  empty : Bool
  candles : List Candle
deriving DecidableEq, Repr

/-- Outcome of the underlying `requests.get` call. -/
inductive HttpResult where
  | ok : PriceData → HttpResult
  | status : ℕ → HttpResult
  | timeout : HttpResult
deriving DecidableEq, Repr

/-- Exceptions `get_price_history` can raise. -/
inductive FetchExn where
  | connError : FetchExn
  | authError : FetchExn
  | timeoutExn : FetchExn
deriving DecidableEq, Repr

/-- `get_price_history` (lines 342-365): 200 with data returns it, 200
empty returns `None`, 429 re-raises as a connection error, 401/403 raise an
auth error, any other status returns `None` (treated as non-retryable), a
timeout re-raises. -/
def get_price_history (r : HttpResult) : Except FetchExn (Option PriceData) :=
  match r with
  | HttpResult.ok body =>
      if body.empty || body.candles.isEmpty then Except.ok none
      else Except.ok (some body)
  | HttpResult.status code =>
      if code = 429 then Except.error FetchExn.connError
      else if code = 401 ∨ code = 403 then Except.error FetchExn.authError
      else Except.ok none
  | HttpResult.timeout => Except.error FetchExn.timeoutExn

/-- Backoff delay for the connection-error / remote-rate-limit branch
(line 397): `retry_delay * 3 ** attempt + random.uniform(1, 5)`. -/
def connRetryDelay (retryDelay : ℚ) (attempt : ℕ) (jitter : ℚ) : ℚ :=
  retryDelay * 3 ^ attempt + jitter

/-- Backoff delay for the generic exception branch (line 420):
`retry_delay * 2 ** attempt + random.uniform(0, 1)`. -/
def stdRetryDelay (retryDelay : ℚ) (attempt : ℕ) (jitter : ℚ) : ℚ :=
  retryDelay * 2 ^ attempt + jitter

/-- Retry loop of `get_price_history_with_retry` (lines 373-426) over the
per-attempt HTTP outcomes, returning the result and the number of
price-history requests issued.  A non-exception return (success or `None`)
ends the loop immediately; every exception (connection error, auth error,
timeout) leads to the next attempt until the attempt ceiling is reached,
after which `None` is returned. -/
def retryGo (responses : ℕ → HttpResult) :
    ℕ → ℕ → Option PriceData × ℕ
  | _, 0 => (none, 0)
  | attempt, fuel + 1 =>
    match get_price_history (responses attempt) with
    | Except.ok r => (r, 1)
    | Except.error _ =>
        let p := retryGo responses (attempt + 1) fuel
        (p.1, p.2 + 1)

/-- `get_price_history_with_retry` (lines 368-426): run the retry loop for
at most `max_retries = config.retry_attempts` attempts. -/
def get_price_history_with_retry (responses : ℕ → HttpResult)
    (maxRetries : ℕ) : Option PriceData × ℕ :=
  retryGo responses 0 maxRetries

/-- `process_data` (lines 429-439): `None`, an empty flag or an empty
candle list yield no DataFrame; otherwise the frame holds exactly the
candles (so it is nonempty). -/
def process_data (raw : Option PriceData) : Option (List Candle) :=
  match raw with
  | none => none
  | some d =>
      if d.empty || d.candles.isEmpty then none else some d.candles

/-- `fetch_and_process_ticker` (lines 464-507): skip if already completed;
fail without marking when no access token is available; otherwise fetch
with retry and — in both the data and the no-data/failure branch — mark
the ticker completed (lines 494-500).  Returns the updated completed set,
the number of price-history requests issued, and the processed frame. -/
def fetch_and_process_ticker (completed : Finset String) (ticker : String)
    (token : Option String) (responses : ℕ → HttpResult)
    (maxRetries : ℕ) : Finset String × ℕ × Option (List Candle) :=
  if ticker ∈ completed then (completed, 0, none)
  else
    match token with
    | none => (completed, 0, none)
    | some _ =>
      let r := get_price_history_with_retry responses maxRetries
      match process_data r.1 with
      | some df => (mark_completed completed ticker, r.2, some df)
      | none => (mark_completed completed ticker, r.2, none)

/-- Sequentialized worker loop of `main_parallel` (lines 591-633): process
each remaining ticker through `fetch_and_process_ticker`, threading the
completed set; collect the tickers for which at least one price-history
request was issued. -/
def runWorkers (token : Option String) (responses : String → ℕ → HttpResult)
    (maxRetries : ℕ) :
    Finset String → List String → Finset String × List String
  | completed, [] => (completed, [])
  | completed, t :: rest =>
    let step := fetch_and_process_ticker completed t token
      (responses t) maxRetries
    let restRun := runWorkers token responses maxRetries step.1 rest
    (restRun.1, (if 0 < step.2.1 then [t] else []) ++ restRun.2)

/-- `main_parallel` (lines 556-643), data part: compute the remaining
tickers from the ledger and run the workers over them (an empty remaining
list runs no workers, line 578). -/
def main_parallel (completed₀ : Finset String) (tickers : List String)
    (token : Option String) (responses : String → ℕ → HttpResult)
    (maxRetries : ℕ) : Finset String × List String :=
  runWorkers token responses maxRetries completed₀
    (get_remaining_tickers completed₀ tickers)

/-- C1 counterexample: ticker `"X"` fetched with a non-retryable HTTP 500
answer — `get_price_history` returns `None` without raising, the retry
wrapper passes the `None` through, and the worker nevertheless marks the
ticker completed (line 500), so a later run's remaining list excludes it.
The claim that such a unit is left incomplete and retried is false. -/
theorem worker_marks_failed_unit_cex :
    get_price_history (HttpResult.status 500) = Except.ok none ∧
      (fetch_and_process_ticker ∅ "X" (some "tok")
          (fun _ => HttpResult.status 500) 3).1 = {"X"} ∧
      get_remaining_tickers {"X"} ["X"] = [] := by
  refine ⟨rfl, ?_, ?_⟩
  · rfl
  · rfl

/-- C1 (amended): a work unit whose fetch ends in a non-retryable HTTP
error or exhausts the retry ceiling (so that the retry wrapper returns
`None`) is nevertheless marked completed by the worker — the failure is
coalesced with the "no data" terminal case — and is therefore excluded
from the remaining list of every subsequent run instead of being
re-attempted. -/
theorem worker_marks_failed_unit (completed : Finset String)
    (ticker tok : String) (responses : ℕ → HttpResult) (maxRetries : ℕ)
    (hnot : ticker ∉ completed)
    (hfail : (get_price_history_with_retry responses maxRetries).1
      = none) :
    (fetch_and_process_ticker completed ticker (some tok) responses
        maxRetries).1 = insert ticker completed ∧
      ∀ l : List String,
        ticker ∉ get_remaining_tickers
          (fetch_and_process_ticker completed ticker (some tok) responses
            maxRetries).1 l := by
  have hmain : (fetch_and_process_ticker completed ticker (some tok)
      responses maxRetries).1 = insert ticker completed := by
    rw [fetch_and_process_ticker, if_neg hnot]
    simp only [hfail, process_data]
    rw [mark_completed, if_neg hnot]
  refine ⟨hmain, ?_⟩
  intro l hmem
  rw [hmain] at hmem
  have := (List.mem_filter.mp hmem).2
  simp at this

/-- Witness for `worker_marks_failed_unit`: ticker `"X"`, empty ledger,
every attempt timing out, retry ceiling 3. -/
theorem worker_marks_failed_unit_wit :
    ("X" ∉ (∅ : Finset String)) ∧
      (get_price_history_with_retry (fun _ => HttpResult.timeout) 3).1
        = none ∧
      (fetch_and_process_ticker ∅ "X" (some "tok")
          (fun _ => HttpResult.timeout) 3).1 = insert "X" ∅ := by
    refine ⟨by simp, rfl, ?_⟩
    exact (worker_marks_failed_unit ∅ "X" "tok" (fun _ => HttpResult.timeout)
      3 (by simp) rfl).1

/-- The retry loop issues at most as many requests as it has fuel. -/
theorem retryGo_calls_le (responses : ℕ → HttpResult) :
    ∀ fuel attempt, (retryGo responses attempt fuel).2 ≤ fuel := by
  intro fuel
  induction fuel with
  | zero => intro attempt; simp [retryGo]
  | succ n ih =>
    intro attempt
    rw [retryGo]
    cases get_price_history (responses attempt) with
    | ok r => simp
    | error e =>
      simp only []
      have := ih (attempt + 1)
      omega

/-- C7 counterexample: in the connection-error branch the consecutive
delays need not strictly increase — with the configured
`retry_delay = 2`, maximal jitter 5 on attempt 0 and minimal jitter 1 on
attempt 1 give `2*3^0 + 5 = 7 = 2*3^1 + 1`.  Both jitters lie in the
`random.uniform(1, 5)` range, so strict growth fails for some jitter
choice. -/
theorem retry_delay_not_strict_cex :
    connRetryDelay 2 0 5 = connRetryDelay 2 1 1 ∧
      ((1 : ℚ) ≤ 5 ∧ (5 : ℚ) ≤ 5) ∧ ((1 : ℚ) ≤ 1 ∧ (1 : ℚ) ≤ 5) := by
  refine ⟨?_, ⟨by norm_num, by norm_num⟩, ⟨by norm_num, by norm_num⟩⟩
  norm_num [connRetryDelay]

/-- Helper: `1 ≤ b ^ n` for `1 ≤ b` in `ℚ`. -/
theorem one_le_pow_rat (b : ℚ) (hb : 1 ≤ b) : ∀ n : ℕ, 1 ≤ b ^ n := by
  intro n
  induction n with
  | zero => norm_num
  | succ k ih =>
    rw [pow_succ]
    nlinarith

/-- C7 (amended): a unit facing only exceptions makes at most
`retry_attempts` price-history requests; with the configured
`retry_delay = 2` the timeout-branch delay (`2*2^a + uniform(0,1)`)
strictly increases between consecutive attempts for every jitter choice,
while the connection-error-branch delay (`2*3^a + uniform(1,5)`) is
non-decreasing but not strictly increasing for every jitter choice. -/
theorem retry_bound_and_backoff (responses : ℕ → HttpResult)
    (maxRetries a : ℕ) (r u u' v v' : ℚ)
    (hr : 2 ≤ r) (hu0 : 0 ≤ u) (hu1 : u ≤ 1) (hu0' : 0 ≤ u')
    (hu1' : u' ≤ 1) (hv1 : 1 ≤ v) (hv5 : v ≤ 5) (hv1' : 1 ≤ v')
    (hv5' : v' ≤ 5) :
    (get_price_history_with_retry responses maxRetries).2 ≤ maxRetries ∧
      stdRetryDelay r a u < stdRetryDelay r (a + 1) u' ∧
      connRetryDelay r a v ≤ connRetryDelay r (a + 1) v' := by
  refine ⟨retryGo_calls_le responses maxRetries 0, ?_, ?_⟩
  · unfold stdRetryDelay
    have h2 : (1 : ℚ) ≤ 2 ^ a := one_le_pow_rat 2 (by norm_num) a
    rw [pow_succ]
    nlinarith
  · unfold connRetryDelay
    have h3 : (1 : ℚ) ≤ 3 ^ a := one_le_pow_rat 3 (by norm_num) a
    rw [pow_succ]
    nlinarith

/-- Witness for `retry_bound_and_backoff`: all timeouts, ceiling 3,
configured `retry_delay = 2`, extreme jitters. -/
theorem retry_bound_and_backoff_wit :
    (get_price_history_with_retry (fun _ => HttpResult.timeout) 3).2 ≤ 3 ∧
      stdRetryDelay 2 0 1 < stdRetryDelay 2 1 0 ∧
      connRetryDelay 2 0 5 ≤ connRetryDelay 2 1 1 := by
  exact retry_bound_and_backoff (fun _ => HttpResult.timeout) 3 0 2 1 0 5 1
    (by norm_num) (by norm_num) (by norm_num) (by norm_num) (by norm_num)
    (by norm_num) (by norm_num) (by norm_num) (by norm_num)

/-- Every ticker the workers fetched came from the submitted list. -/
theorem runWorkers_fetched_sub (token : Option String)
    (responses : String → ℕ → HttpResult) (maxRetries : ℕ) :
    ∀ (l : List String) (completed : Finset String),
      ∀ t ∈ (runWorkers token responses maxRetries completed l).2,
        t ∈ l := by
  intro l
  induction l with
  | nil => intro completed t ht; simp [runWorkers] at ht
  | cons x rest ih =>
    intro completed t ht
    rw [runWorkers] at ht
    rcases List.mem_append.mp ht with h | h
    · by_cases hc : 0 < (fetch_and_process_ticker completed x token
          (responses x) maxRetries).2.1
      · rw [if_pos hc] at h
        have ht' : t = x := by simpa using h
        simp [ht']
      · rw [if_neg hc] at h
        simp at h
    · exact List.mem_cons_of_mem _ (ih _ t h)

/-- With a token available, the workers mark every submitted ticker, so the
final set is the initial set united with the submitted list. -/
theorem runWorkers_final_set (tok : String)
    (responses : String → ℕ → HttpResult) (maxRetries : ℕ) :
    ∀ (l : List String) (completed : Finset String),
      (runWorkers (some tok) responses maxRetries completed l).1
        = completed ∪ l.toFinset := by
  intro l
  induction l with
  | nil => intro completed; simp [runWorkers]
  | cons x rest ih =>
    intro completed
    rw [runWorkers]
    have hstep : (fetch_and_process_ticker completed x (some tok)
        (responses x) maxRetries).1
        = if x ∈ completed then completed else insert x completed := by
      by_cases hx : x ∈ completed
      · rw [fetch_and_process_ticker, if_pos hx, if_pos hx]
      · rw [if_neg hx, fetch_and_process_ticker, if_neg hx]
        cases hpd : process_data (get_price_history_with_retry
            (responses x) maxRetries).1 with
        | none => simp only [hpd, mark_completed, if_neg hx]
        | some df => simp only [hpd, mark_completed, if_neg hx]
    simp only [hstep]
    by_cases hx : x ∈ completed
    · rw [if_pos hx, ih]
      ext y
      simp only [Finset.mem_union, List.toFinset_cons, Finset.mem_insert]
      constructor
      · rintro (h | h)
        · exact Or.inl h
        · exact Or.inr (Or.inr h)
      · rintro (h | h | h)
        · exact Or.inl h
        · exact Or.inl (h ▸ hx)
        · exact Or.inr h
    · rw [if_neg hx, ih]
      ext y
      simp only [Finset.mem_union, Finset.mem_insert, List.toFinset_cons]
      tauto

/-- C3 counterexample: with ledger `S = {"B"}` and symbol list `["A"]`, a
token available and the single fetch succeeding, the run marks `"A"` but
keeps `"B"`: the resulting completed set is `insert "A" {"B"}`, not the
symbol list's set `{"A"}`.  The claim's conclusion "the resulting completed
set equals all_symbols" fails whenever `S` is not contained in the list. -/
theorem scheduler_completed_set_cex :
    ((get_price_history_with_retry
        (fun _ => HttpResult.ok
          { empty := false
            candles := [{ datetime := 0, open' := 1, high := 1, low := 1,
                           close := 1, volume := 1 }] }) 3).1).isSome = true ∧
      (main_parallel {"B"} ["A"] (some "tok")
          (fun _ _ => HttpResult.ok
            { empty := false
              candles := [{ datetime := 0, open' := 1, high := 1, low := 1,
                             close := 1, volume := 1 }] }) 3).1
        = insert "A" {"B"} ∧
      insert "A" ({"B"} : Finset String) ≠ ({"A"} : Finset String) := by
  refine ⟨rfl, ?_, ?_⟩
  · rfl
  · decide

/-- C3 (amended): with an access token available, a run over `tickers`
starting from ledger `S` issues price-history requests only for tickers of
the list that are not in `S` (they are filtered out of the remaining list,
and each worker re-checks the ledger), the resulting completed set is
`S ∪ tickers` — independently of fetch success, since failed units are
marked too — hence equals the ticker set whenever `S ⊆ tickers`; and if
every ticker is already complete no request is issued at all. -/
theorem scheduler_resume_idempotence (completed₀ : Finset String)
    (tickers : List String) (tok : String)
    (responses : String → ℕ → HttpResult) (maxRetries : ℕ) :
    (∀ t ∈ (main_parallel completed₀ tickers (some tok) responses
        maxRetries).2, t ∈ tickers ∧ t ∉ completed₀) ∧
      (main_parallel completed₀ tickers (some tok) responses maxRetries).1
        = completed₀ ∪ tickers.toFinset ∧
      (completed₀ ⊆ tickers.toFinset →
        (main_parallel completed₀ tickers (some tok) responses
          maxRetries).1 = tickers.toFinset) ∧
      (get_remaining_tickers completed₀ tickers = [] →
        (main_parallel completed₀ tickers (some tok) responses
          maxRetries).2 = []) := by
  have hsub : ∀ t ∈ (main_parallel completed₀ tickers (some tok) responses
      maxRetries).2, t ∈ tickers ∧ t ∉ completed₀ := by
    intro t ht
    have hmem := runWorkers_fetched_sub (some tok) responses maxRetries
      (get_remaining_tickers completed₀ tickers) completed₀ t ht
    have := List.mem_filter.mp hmem
    refine ⟨this.1, ?_⟩
    simpa using this.2
  have hfin : (main_parallel completed₀ tickers (some tok) responses
      maxRetries).1 = completed₀ ∪ tickers.toFinset := by
    rw [main_parallel, runWorkers_final_set]
    ext y
    simp only [Finset.mem_union, List.mem_toFinset, get_remaining_tickers,
      List.mem_filter, decide_eq_true_eq]
    constructor
    · rintro (h | h)
      · exact Or.inl h
      · exact Or.inr h.1
    · rintro (h | h)
      · exact Or.inl h
      · by_cases hy : y ∈ completed₀
        · exact Or.inl hy
        · exact Or.inr ⟨h, by simpa using hy⟩
  refine ⟨hsub, hfin, ?_, ?_⟩
  · intro hss
    rw [hfin]
    exact Finset.union_eq_right.mpr hss
  · intro hempty
    rw [main_parallel, hempty]
    rfl

/-- Witness for `scheduler_resume_idempotence`: ledger `{"A"}` contained in
the list `["A", "B"]`; the run completes the set to exactly the list. -/
theorem scheduler_resume_idempotence_wit :
    (({"A"} : Finset String) ⊆ (["A", "B"] : List String).toFinset) ∧
      (main_parallel {"A"} ["A", "B"] (some "tok")
          (fun _ _ => HttpResult.timeout) 3).1
        = (["A", "B"] : List String).toFinset := by
  refine ⟨by decide, ?_⟩
  exact (scheduler_resume_idempotence {"A"} ["A", "B"] "tok"
    (fun _ _ => HttpResult.timeout) 3).2.2.1 (by decide)

/-! ## Byte-level persistence of the progress ledger (lines 528-540)

`ProgressTracker.save_progress` executes
`open(self.filename, 'w')` followed by
`json.dump({'completed_tickers': sorted(list(self.completed_tickers))}, f, indent=2)`.
The write is in place: `open(..., 'w')` truncates the target file, so a
process kill while writing leaves a strict prefix of the serialized bytes
on disk.  `serializeProgress` reproduces `json.dump`'s output for this
payload byte for byte (for tickers free of characters JSON would escape),
and `parseProgressChars` models `json.load` plus the
`data.get('completed_tickers', [])` extraction on the contents this
program writes: it accepts exactly a well-formed
`\x7b "completed_tickers": [ ...strings... ] \x7d` document and rejects
everything else — in particular every strict prefix, just as `json.load`
rejects truncated JSON. -/

/-- Whitespace as skipped by the JSON parser. -/
def isWs (c : Char) : Bool :=
  c == ' ' || c == '\n' || c == '\t' || c == '\r'

/-- Drop leading whitespace. -/
def skipWs : List Char → List Char
  | [] => []
  | c :: cs => if isWs c then skipWs cs else c :: cs

/-- Read the body of a JSON string after its opening quote, up to the
closing quote (the tickers written by the program contain no escapes). -/
def readStr : List Char → Option (List Char × List Char)
  | [] => none
  | c :: cs =>
    if c = '"' then some ([], cs)
    else
      match readStr cs with
      | some (s, rest) => some (c :: s, rest)
      | none => none

/-- Parse the continuation of a JSON string array after one element:
either the closing bracket or a comma followed by the next string. -/
def parseRest : ℕ → List Char → Option (List String × List Char)
  | 0, _ => none
  | fuel + 1, cs =>
    match skipWs cs with
    | [] => none
    | c :: rest =>
      if c = ']' then some ([], rest)
      else if c = ',' then
        match skipWs rest with
        | [] => none
        | c2 :: rest2 =>
          if c2 = '"' then
            match readStr rest2 with
            | some (s, rest3) =>
              match parseRest fuel rest3 with
              | some (ss, rest4) => some (String.mk s :: ss, rest4)
              | none => none
            | none => none
          else none
      else none

/-- Parse a JSON array of strings after its opening bracket. -/
def parseArray (fuel : ℕ) (cs : List Char) :
    Option (List String × List Char) :=
  match skipWs cs with
  | [] => none
  | c :: rest =>
    if c = ']' then some ([], rest)
    else if c = '"' then
      match readStr rest with
      | some (s, rest2) =>
        match parseRest fuel rest2 with
        | some (ss, rest3) => some (String.mk s :: ss, rest3)
        | none => none
      | none => none
    else none

/-- The characters of the key `completed_tickers`. -/
def keyChars : List Char :=
  ['c', 'o', 'm', 'p', 'l', 'e', 't', 'e', 'd', '_',
   't', 'i', 'c', 'k', 'e', 'r', 's']

/-- Parse the whole progress file: an object with the single key
`completed_tickers` holding an array of strings.  Returns `none` on any
malformed input (modelling the `json.load` failure swallowed by
`load_progress`). -/
def parseProgressChars (cs : List Char) : Option (List String) :=
  match skipWs cs with
  | [] => none
  | c0 :: cs1 =>
    if c0 = '\x7b' then
      match skipWs cs1 with
      | [] => none
      | c1 :: cs2 =>
        if c1 = '"' then
          match readStr cs2 with
          | some (k, cs3) =>
            if k = keyChars then
              match skipWs cs3 with
              | [] => none
              | c2 :: cs4 =>
                if c2 = ':' then
                  match skipWs cs4 with
                  | [] => none
                  | c3 :: cs5 =>
                    if c3 = '[' then
                      match parseArray (cs5.length + 1) cs5 with
                      | some (ss, cs6) =>
                        match skipWs cs6 with
                        | [] => none
                        | c4 :: cs7 =>
                          if c4 = '\x7d' then
                            if skipWs cs7 = [] then some ss else none
                          else none
                      | none => none
                    else none
                else none
            else none
          | none => none
        else none
    else none

/-- A JSON string literal for a ticker. -/
def quoteJson (s : String) : List Char :=
  '"' :: (s.data ++ ['"'])

/-- Indentation `json.dump(..., indent=2)` places before each array
element. -/
def itemIndent : List Char := ['\n', ' ', ' ', ' ', ' ']

/-- Array elements as `json.dump(..., indent=2)` lays them out. -/
def serializeItems : List String → List Char
  | [] => []
  | [x] => itemIndent ++ quoteJson x
  | x :: y :: rest =>
      itemIndent ++ quoteJson x ++ [','] ++ serializeItems (y :: rest)

/-- Opening of the dumped object, up to and including the array bracket. -/
def headerChars : List Char :=
  '\x7b' :: '\n' :: ' ' :: ' ' :: '"' :: (keyChars ++ ['"', ':', ' ', '['])

/-- Closing bytes after an empty array. -/
def closeEmpty : List Char := [']', '\n', '\x7d']

/-- Closing bytes after a nonempty array. -/
def closeNonempty : List Char := ['\n', ' ', ' ', ']', '\n', '\x7d']

/-- Continuation of the serialized array after one element: either the
closing bytes, or a comma, the next indented element, and recursively the
rest. -/
def serRest : List String → List Char
  | [] => closeNonempty
  | x :: xs => ',' :: (itemIndent ++ (quoteJson x ++ serRest xs))

/-- The exact bytes `save_progress` writes for a sorted ticker list. -/
def serializeProgress (l : List String) : List Char :=
  headerChars ++ serializeItems l
    ++ (if l.isEmpty then closeEmpty else closeNonempty)

/-- `ProgressTracker.save_progress` (lines 528-534): serialize the sorted
completed set. -/
def save_progress (completed : Finset String) : List Char :=
  serializeProgress (completed.sort (· ≤ ·))

/-- Reloading a progress file from raw bytes: parse failures yield the
empty set (the exception is swallowed, line 525-526). -/
def load_progress_content (cs : List Char) : Finset String :=
  match parseProgressChars cs with
  | some ss => ss.toFinset
  | none => ∅

theorem skipWs_nil : skipWs [] = [] := rfl

theorem skipWs_ws (c : Char) (cs : List Char) (h : isWs c = true) :
    skipWs (c :: cs) = skipWs cs := by
  simp [skipWs, h]

theorem skipWs_not (c : Char) (cs : List Char) (h : isWs c = false) :
    skipWs (c :: cs) = c :: cs := by
  simp [skipWs, h]

theorem isWs_space : isWs ' ' = true := by decide

theorem isWs_newline : isWs '\n' = true := by decide

theorem isWs_quote : isWs '"' = false := by decide

theorem isWs_comma : isWs ',' = false := by decide

theorem isWs_rbracket : isWs ']' = false := by decide

theorem isWs_lbracket : isWs '[' = false := by decide

theorem isWs_colon : isWs ':' = false := by decide

theorem isWs_lbrace : isWs '\x7b' = false := by decide

theorem isWs_rbrace : isWs '\x7d' = false := by decide

theorem readStr_append (s : List Char) (rest : List Char)
    (h : '"' ∉ s) : readStr (s ++ '"' :: rest) = some (s, rest) := by
  induction s with
  | nil => simp [readStr]
  | cons c cs ih =>
    have hc : ¬ (c = '"') := by
      intro hcq
      exact h (by simp [hcq])
    have ih' := ih (fun hm => h (List.mem_cons_of_mem _ hm))
    simp [readStr, hc, ih']

theorem stringMk_data (s : String) : String.mk s.data = s := rfl

theorem serializeItems_cons (x : String) (xs : List String) :
    serializeItems (x :: xs)
      = itemIndent ++ quoteJson x
        ++ (if xs.isEmpty then [] else ',' :: serializeItems xs) := by
  cases xs with
  | nil => simp [serializeItems]
  | cons y ys => simp [serializeItems]

theorem serRest_len (xs : List String) : xs.length ≤ (serRest xs).length := by
  induction xs with
  | nil => simp [serRest, closeNonempty]
  | cons x ys ih =>
    simp only [serRest, itemIndent, quoteJson, List.length_cons,
      List.length_append]
    omega

theorem serializeItems_close (xs : List String) (x : String) :
    serializeItems (x :: xs) ++ closeNonempty
      = itemIndent ++ (quoteJson x ++ serRest xs) := by
  induction xs generalizing x with
  | nil => simp [serializeItems, serRest]
  | cons y ys ih =>
    rw [serializeItems]
    have hy := ih y
    simp only [List.append_assoc, List.cons_append, List.nil_append] at hy ⊢
    rw [hy]
    simp [serRest]

theorem parseRest_ser :
    ∀ (xs : List String), (∀ s ∈ xs, '"' ∉ s.data) →
      ∀ fuel, xs.length < fuel →
        parseRest fuel (serRest xs) = some (xs, ['\n', '\x7d']) := by
  intro xs
  induction xs with
  | nil =>
    intro _ fuel hf
    cases fuel with
    | zero => exact absurd hf (Nat.not_lt_zero _)
    | succ m =>
      simp [parseRest, serRest, closeNonempty, skipWs_ws, skipWs_not,
        isWs_newline, isWs_space, isWs_rbracket]
  | cons x xs ih =>
    intro hgood fuel hf
    cases fuel with
    | zero => exact absurd hf (Nat.not_lt_zero _)
    | succ m =>
      have hx : ('"' : Char) ∉ x.data := hgood x (by simp)
      have ihgood : ∀ s ∈ xs, ('"' : Char) ∉ s.data :=
        fun s hs => hgood s (List.mem_cons_of_mem _ hs)
      have hm : xs.length < m := by
        simp only [List.length_cons] at hf
        omega
      have ihx := ih ihgood m hm
      have hrs : ∀ r : List Char,
          readStr (x.data ++ '"' :: r) = some (x.data, r) :=
        fun r => readStr_append _ r hx
      simp [parseRest, serRest, itemIndent, quoteJson, skipWs_ws,
        skipWs_not, isWs_newline, isWs_space, isWs_comma, isWs_quote,
        hrs, ihx, stringMk_data]

theorem parseArray_ser_cons (x : String) (xs : List String)
    (hgood : ∀ s ∈ x :: xs, '"' ∉ s.data)
    (fuel : ℕ) (hf : xs.length < fuel) :
    parseArray fuel (itemIndent ++ (quoteJson x ++ serRest xs))
      = some (x :: xs, ['\n', '\x7d']) := by
  have hx : ('"' : Char) ∉ x.data := hgood x (by simp)
  have ihgood : ∀ s ∈ xs, ('"' : Char) ∉ s.data :=
    fun s hs => hgood s (List.mem_cons_of_mem _ hs)
  have hrest := parseRest_ser xs ihgood fuel hf
  have hrs : ∀ r : List Char,
      readStr (x.data ++ '"' :: r) = some (x.data, r) :=
    fun r => readStr_append _ r hx
  simp [parseArray, itemIndent, quoteJson, skipWs_ws, skipWs_not,
    isWs_newline, isWs_space, isWs_quote, hrs, hrest, stringMk_data]

theorem parseProgress_ser (l : List String)
    (hgood : ∀ s ∈ l, '"' ∉ s.data) :
    parseProgressChars (serializeProgress l) = some l := by
  cases l with
  | nil => decide
  | cons x xs =>
    have hkey : ∀ r : List Char,
        readStr (keyChars ++ '"' :: r) = some (keyChars, r) :=
      fun r => readStr_append _ r (by decide)
    have hclose : serializeItems (x :: xs) ++ closeNonempty
        = itemIndent ++ (quoteJson x ++ serRest xs) :=
      serializeItems_close xs x
    simp [serializeProgress, headerChars, hclose]
    simp [parseProgressChars, skipWs_ws, skipWs_not, isWs_lbrace,
      isWs_newline, isWs_space, isWs_quote, isWs_colon, isWs_lbracket,
      hkey]
    rw [parseArray_ser_cons x xs hgood]
    · simp [skipWs_ws, skipWs_not, skipWs_nil, isWs_newline, isWs_rbrace]
    · have := serRest_len xs
      omega

/-- C4 counterexample: with pre-call ledger containing `"A"`, a kill after
the in-place `open(..., 'w')` truncation has written only the first byte of
the new serialization leaves the file holding just `\x7b`, which does not
parse; on restart the loader swallows the error and starts with the empty
set, so the previously completed `"A"` is lost.  The claimed
write-then-rename atomicity does not hold for the code's plain in-place
write. -/
theorem progress_save_truncation_cex :
    parseProgressChars ((serializeProgress ["A", "B"]).take 1) = none ∧
      load_progress_content ((serializeProgress ["A", "B"]).take 1) = ∅ ∧
      "A" ∉ load_progress_content ((serializeProgress ["A", "B"]).take 1)
    := by
  refine ⟨by decide, by decide, by decide⟩

/-- C4 (amended): `save_progress` rewrites the ledger file in place
(truncate-then-write, not write-then-rename), so a kill during the write
can leave an unparseable prefix that is loaded as the empty set, losing
previously completed entries; but a kill immediately after
`mark_complete(x)` has returned — the write having completed — leaves the
full serialization, which parses back to exactly the post-call set, so
`is_complete(x)` is true after restart (for tickers free of
JSON-escaped characters). -/
theorem progress_save_durability (pre : Finset String) (x : String)
    (hgood : ∀ s ∈ mark_completed pre x, '"' ∉ s.data) :
    load_progress_content (save_progress (mark_completed pre x))
        = mark_completed pre x ∧
      x ∈ load_progress_content (save_progress (mark_completed pre x)) := by
  have hg : ∀ s ∈ (mark_completed pre x).sort (· ≤ ·), '"' ∉ s.data := by
    intro s hs
    exact hgood s ((Finset.mem_sort _).mp hs)
  have h1 := parseProgress_ser _ hg
  have hload : load_progress_content (save_progress (mark_completed pre x))
      = mark_completed pre x := by
    rw [save_progress, load_progress_content]
    rw [h1]
    exact Finset.sort_toFinset _ _
  refine ⟨hload, ?_⟩
  rw [hload]
  by_cases hx : x ∈ pre <;> simp [mark_completed, hx]

/-- Witness for `progress_save_durability`: empty ledger, ticker `"A"`. -/
theorem progress_save_durability_wit :
    (∀ s ∈ mark_completed ∅ "A", ('"' : Char) ∉ s.data) ∧
      load_progress_content (save_progress (mark_completed ∅ "A"))
        = mark_completed ∅ "A" := by
  refine ⟨by decide, ?_⟩
  exact (progress_save_durability ∅ "A" (by decide)).1

end PriceHistoryFast
